import Mathlib

/-!
Verification of the orchestration core of the serverless-ide language
service (`packages/language-server/src/language-service/languageService.ts`).

The embedding has three layers, each translated from the source:

* an effect-trace model of the dispatcher and lifecycle handlers
  (`onFileChanged`, `clearDocument`, `validate`, `doResolve`,
  `findReferences`): each function is a pure function from the results of
  its collaborator calls to the ordered list of side effects it performs;
* a small-step state machine for the debounced validation scheduler
  (`doValidation`, `cleanPendingValidation`, timer firing);
* a state machine for the bounded-concurrency batch runner built on the
  promise pool (`triggerValidationForWorkspaceFiles`).

Collaborators that live outside the orchestration file (DocumentService,
SchemaService, the capability engines) enter only through their results,
as the spec describes their interfaces.
-/

namespace LangSvc

/-- A JavaScript error value as it reaches the catch blocks of the service:
either the dedicated `CfnLintFailedToExecuteError`, a `TypeError` raised by a
property access on `undefined`, or any other error carrying a message. -/
inductive JSError where
  | cfnLintFailedToExecuteError
  | typeError (msg : String)
  | error (msg : String)
deriving DecidableEq, Repr

/-- `err.message` as read by the catch blocks. -/
def JSError.message : JSError → String
  | .cfnLintFailedToExecuteError => "CfnLintFailedToExecuteError"
  | .typeError msg => msg
  | .error msg => msg

/-- A text document held by the document store: `uri` and `getText()`. -/
structure Document where
  uri : String
  text : String
deriving DecidableEq, Repr

/-- The parsed (YAML) representation of a document; only the fields the
orchestration layer reads are modelled. -/
structure YamlDoc where
  documentType : Option String
deriving DecidableEq, Repr

/-- One observable side effect performed by the orchestration layer, in the
order the source performs them. -/
inductive Eff where
  | clearPartialSchema (uri : String)
  | clearRelations (uri : String)
  | scheduleValidation (uri : String)
  | cancelPendingValidation (uri : String)
  | clearDocStore (uri : String)
  | sendDiagnostics (uri : String) (diagnostics : List String)
  | sendNotification (method : String)
  | sendAnalytics (action : String) (label : Option String)
      (documentType : Option String)
  | invokeValidationEngine (uri : String)
  | invokeResolveDelegate (label : String)
  | sendException (msg : String)
deriving DecidableEq, Repr

/-! ### Lifecycle handler `onFileChanged` (languageService.ts lines 149-161)

The handler reads `getChildrenUris(uri)` (possibly a missing entry, hence
`Option`), and when the result is a non-empty list it clears each child's
partial schema, clears the relations of `uri`, and finally schedules one
revalidation of `uri` through `doValidation`. -/

/-- Effect trace of the `onFileChanged` lifecycle callback.  The JavaScript
guard `children && children.length` is true exactly when the store returned a
non-empty list. -/
def onFileChanged (children : Option (List String)) (uri : String) :
    List Eff :=
  (match children with
   | some cs =>
       if cs.length ≠ 0 then
         cs.map Eff.clearPartialSchema ++ [Eff.clearRelations uri]
       else []
   | none => [])
  ++ [Eff.scheduleValidation uri]

/-! ### `clearDocument` (languageService.ts lines 312-329) -/

/-- Effect trace of `clearDocument`: cancel any pending validation, clear the
document from the store, publish empty diagnostics, and clear each recorded
child's partial schema.  The guard `children && children.length > 0` is true
exactly when the store returned a non-empty list. -/
def clearDocument (children : Option (List String)) (uri : String) :
    List Eff :=
  [Eff.cancelPendingValidation uri,
   Eff.clearDocStore uri,
   Eff.sendDiagnostics uri []]
  ++ (match children with
      | some cs =>
          if cs.length > 0 then cs.map Eff.clearPartialSchema else []
      | none => [])

/-! ### Debounced validation body `validate` (languageService.ts lines 347-383) -/

/-- Collaborator results consumed by one run of `validate`.
Modelled from the spec: `DocumentService.getTextDocument(uri) -> Document?`
(the store is outside the orchestration file; per the spec an unavailable
document is an absent value, so it is an `Option`), while
`getYamlDocument` and the validation engine may reject/throw, so they are
`Except`. -/
structure ValidateEnv where
  textDocument : Option Document
  getYamlDocument : Except JSError YamlDoc
  engineResult : YamlDoc → Except JSError Unit

/-- The `try` block of `validate`: parse, emit the `validateDocument`
analytics event, invoke the validation engine.  Returns the effects performed
together with the error caught by the `catch` block, if any. -/
def validateTryBlock (env : ValidateEnv) (doc : Document) :
    List Eff × Option JSError :=
  match env.getYamlDocument with
  | .error e => ([], some e)
  | .ok yamlDocument =>
      let effs := [Eff.sendAnalytics "validateDocument" none
                     yamlDocument.documentType,
                   Eff.invokeValidationEngine doc.uri]
      match env.engineResult yamlDocument with
      | .ok _ => (effs, none)
      | .error e => (effs, some e)

/-- Effect trace of one run of `validate uri`.  A missing document returns
with no effects; zero-length text publishes empty diagnostics and returns;
otherwise the `try` block runs and the `catch` block sends the out-of-band
notification exactly when the caught error is `CfnLintFailedToExecuteError`.
The function is total: no error escapes the `try`/`catch`. -/
def validate (env : ValidateEnv) (uri : String) : List Eff :=
  match env.textDocument with
  | none => []
  | some doc =>
      if doc.text.length = 0 then
        [Eff.sendDiagnostics doc.uri []]
      else
        let r := validateTryBlock env doc
        r.1 ++ (match r.2 with
                | some JSError.cfnLintFailedToExecuteError =>
                    [Eff.sendNotification "custom/cfn-lint-installation-error"]
                | _ => [])

/-! ### `doResolve` (languageService.ts lines 218-229) -/

/-- The `data` payload of a completion item, as read by `doResolve`. -/
structure ItemData where
  documentType : Option String
deriving DecidableEq, Repr

/-- A completion item as read by `doResolve`. -/
structure CompletionItem where
  label : String
  data : Option ItemData
deriving DecidableEq, Repr

/-- Outcome of the resolve delegate `completer.doResolve`, which `doResolve`
returns without any local catch. -/
def doResolve (item : CompletionItem)
    (delegate : Except JSError CompletionItem) :
    List Eff × Except JSError CompletionItem :=
  ([Eff.sendAnalytics "resolveCompletion" (some item.label)
      (item.data.bind (fun d => d.documentType)),
    Eff.invokeResolveDelegate item.label],
   delegate)

/-! ### `findReferences` (languageService.ts lines 277-294) -/

/-- Collaborator results consumed by one `findReferences` request.
Modelled from the spec: `getTextDocument -> Document?` is an `Option`;
`getYamlDocument` and the references engine may reject/throw. -/
structure RefEnv where
  textDocument : Option Document
  getYamlDocument : String → Except JSError YamlDoc
  getReferences : Document → YamlDoc → Except JSError (List String)

/-- Result type of `findReferences`: either locations or a
`ResponseError(code, message)`. -/
inductive RefResult where
  | locations (locs : List String)
  | responseError (code : Nat) (msg : String)
deriving DecidableEq, Repr

/-- The `try` block of `findReferences`.  `document.uri` is evaluated inside
the `try`, so when `getTextDocument` returned no document the property access
raises a `TypeError` that the `catch` sees. -/
def findReferencesTryBlock (env : RefEnv) : Except JSError (List String) :=
  match env.textDocument with
  | none =>
      throw (JSError.typeError
        "Cannot read property of undefined")
  | some document => do
      let yamlDocument ← env.getYamlDocument document.uri
      env.getReferences document yamlDocument

/-- `findReferences`: run the `try` block; on any caught error report it to
the exception sink and answer `ResponseError(1, err.message)`. -/
def findReferences (env : RefEnv) : List Eff × RefResult :=
  match findReferencesTryBlock env with
  | .ok locs => ([], RefResult.locations locs)
  | .error e =>
      ([Eff.sendException e.message], RefResult.responseError 1 e.message)

/-! ### The validation scheduler (languageService.ts lines 231-244, 385-391)

`doValidation(uri)` first calls `cleanPendingValidation(uri)`, then arms a
fresh `setTimeout` with delay `VALIDATION_DELAY_MS = 200` and records its
handle in `pendingValidationRequests[uri]`; the returned promise is settled
only by the timer callback (`validate(uri).then(resolve).catch(reject)`),
which first deletes the pending entry.  We model this as a small-step state
machine over single-threaded event-loop time.  Timer handles and the promise
created by the same `doValidation` call share one fresh identifier. -/

/-- `VALIDATION_DELAY_MS` from the source. -/
def VALIDATION_DELAY_MS : Nat := 200

/-- One live `setTimeout` handle: its identifier, the URI whose validation it
will run, and the event-loop time at which it may fire. -/
structure TimerEntry where
  tid : Nat
  uri : String
  deadline : Nat
deriving DecidableEq, Repr

/-- State of the scheduler: the `pendingValidationRequests` map (an
association list URI to timer id), the set of live timers, a fresh-identifier
counter, the current event-loop time, the identifiers of the `doValidation`
calls whose `validate` body has executed, and the identifiers of the
promises that have settled (resolved or rejected). -/
structure SchedState where
  pending : List (String × Nat)
  timers : List TimerEntry
  nextId : Nat
  now : Nat
  executed : List Nat
  settled : List Nat
deriving DecidableEq, Repr

/-- The timer id recorded in `pendingValidationRequests` for `uri`, if any. -/
def lookupPending (s : SchedState) (uri : String) : Option Nat :=
  (s.pending.find? (fun p => p.1 = uri)).map (fun p => p.2)

/-- `cleanPendingValidation(uri)`: if a pending request exists for `uri`,
`clearTimeout` its timer and delete the map entry; otherwise do nothing. -/
def cleanPendingValidation (s : SchedState) (uri : String) : SchedState :=
  match lookupPending s uri with
  | some tid =>
      { s with
        pending := s.pending.filter (fun p => p.1 ≠ uri),
        timers := s.timers.filter (fun t => t.tid ≠ tid) }
  | none => s

/-- `doValidation(uri)`: cancel any pending handle for `uri`, then arm a new
timer with deadline `now + 200` and record it under `uri`.  The fresh
identifier `s.nextId` names both the timer and the promise returned by this
call. -/
def doValidation (s : SchedState) (uri : String) : SchedState :=
  let s1 := cleanPendingValidation s uri
  { s1 with
    pending := (uri, s1.nextId) :: s1.pending,
    timers := ⟨s1.nextId, uri, s1.now + VALIDATION_DELAY_MS⟩ :: s1.timers,
    nextId := s1.nextId + 1 }

/-- Events the scheduler reacts to: time passing, a `doValidation` call, the
`cleanPendingValidation` performed by `clearDocument`, and a live timer
firing once its deadline has passed. -/
inductive SchedEv where
  | elapse (d : Nat)
  | doValidationEv (uri : String)
  | clearDocumentEv (uri : String)
  | fireTimerEv (tid : Nat)
deriving DecidableEq, Repr

/-- Single step of the scheduler.  `fireTimerEv tid` is enabled only for a
live timer whose deadline has been reached; its callback deletes the pending
entry for the timer's URI, runs `validate`, and settles the promise of the
`doValidation` call that armed it. -/
def schedStep (s : SchedState) : SchedEv → Option SchedState
  | .elapse d => some { s with now := s.now + d }
  | .doValidationEv uri => some (doValidation s uri)
  | .clearDocumentEv uri => some (cleanPendingValidation s uri)
  | .fireTimerEv tid =>
      match s.timers.find? (fun t => t.tid = tid) with
      | none => none
      | some t =>
          if t.deadline ≤ s.now then
            some { s with
              timers := s.timers.filter (fun t2 => t2.tid ≠ tid),
              pending := s.pending.filter (fun p => p.1 ≠ t.uri),
              executed := tid :: s.executed,
              settled := tid :: s.settled }
          else none

/-- Run a list of events from a state; `none` if some event is not enabled. -/
def schedRun (s : SchedState) : List SchedEv → Option SchedState
  | [] => some s
  | ev :: evs =>
      match schedStep s ev with
      | some s1 => schedRun s1 evs
      | none => none

/-- A `doValidation`-call identifier is dead in a state when it is below the
fresh counter, has no live timer, has not executed and has not settled.  Dead
identifiers stay dead forever (`schedStep_dead`). -/
def DeadId (s : SchedState) (tid : Nat) : Prop :=
  tid < s.nextId ∧ (∀ t ∈ s.timers, t.tid ≠ tid) ∧
    tid ∉ s.executed ∧ tid ∉ s.settled

/-- The scheduler's initial state: no pending requests, no timers, nothing
executed or settled. -/
def initSched : SchedState :=
  { pending := [], timers := [], nextId := 0, now := 0,
    executed := [], settled := [] }

/-- States of the scheduler reachable from start-up. -/
inductive SchedReach : SchedState → Prop where
  | init : SchedReach initSched
  | step {s s' : SchedState} (ev : SchedEv) :
      SchedReach s → schedStep s ev = some s' → SchedReach s'

/-- The scheduler's invariant, tying `pendingValidationRequests` to the live
timers: every live timer is recorded in the pending map under its URI, every
pending entry has its live timer, timer identifiers are distinct and below
the fresh counter, executed and settled identifiers are below the fresh
counter, and a pending (not yet fired) identifier has neither executed nor
settled. -/
structure SchedInv (s : SchedState) : Prop where
  pendingOfTimer : ∀ t ∈ s.timers, lookupPending s t.uri = some t.tid
  timerOfPending : ∀ p ∈ s.pending,
    ∃ t ∈ s.timers, t.tid = p.2 ∧ t.uri = p.1
  timerIdsNodup : (s.timers.map TimerEntry.tid).Nodup
  timerIdLt : ∀ t ∈ s.timers, t.tid < s.nextId
  executedLt : ∀ x ∈ s.executed, x < s.nextId
  settledLt : ∀ x ∈ s.settled, x < s.nextId
  pendingFresh : ∀ p ∈ s.pending, p.2 ∉ s.executed ∧ p.2 ∉ s.settled

/-! ### The bounded-concurrency batch runner
(languageService.ts lines 117-138)

`triggerValidationForWorkspaceFiles` builds a producer `nextPromise` that
walks a cursor `currentIndex` over the URI list and returns
`doValidation(uri).catch(sendException)` for the next URI, and hands it to a
promise pool with concurrency 3.
Modelled from the spec: the pool itself is an external library; per the spec
it starts validations keeping at most 3 in flight, and whenever one settles
it pulls the next URI from the producer.  Because each produced promise ends
in `.catch(sendException)`, the pool always observes fulfilment: a failed
validation reports to the exception sink and the pool refills regardless. -/

/-- State of one batch run: the URI list of the workspace snapshot, the
producer's cursor, the indices of in-flight validations, the indices settled
with success and with failure, and the exception sink. -/
structure PoolState where
  uris : List String
  currentIndex : Nat
  inFlight : List Nat
  settledOk : List Nat
  settledErr : List Nat
  sink : List Nat
deriving DecidableEq, Repr

/-- Number of validations of the batch that have settled. -/
def doneCount (s : PoolState) : Nat :=
  s.settledOk.length + s.settledErr.length

/-- Start `doValidation(uris[currentIndex]).catch(sendException)`: the index
becomes in-flight and the cursor advances. -/
def spawnNext (s : PoolState) : PoolState :=
  { s with
    inFlight := s.inFlight ++ [s.currentIndex],
    currentIndex := s.currentIndex + 1 }

/-- `nextPromise`: if the cursor has not exhausted the URI list, start the
validation of the next URI (it becomes in-flight) and advance the cursor;
otherwise return `null` (no state change, `none`). -/
def nextPromise (s : PoolState) : Option PoolState :=
  if s.currentIndex < s.uris.length then some (spawnNext s) else none

/-- Fill the pool: call `nextPromise` while fewer than 3 validations are in
flight and the producer still yields work.  Fuel 3 suffices because each
call adds one in-flight entry. -/
def poolFillAux : Nat → PoolState → PoolState
  | 0, s => s
  | n + 1, s =>
      if s.inFlight.length < 3 then
        match nextPromise s with
        | some s1 => poolFillAux n s1
        | none => s
      else s

/-- `pool.start()` on a fresh batch over `uris`: fill up to concurrency 3. -/
def poolStart (uris : List String) : PoolState :=
  poolFillAux 3
    { uris := uris, currentIndex := 0, inFlight := [],
      settledOk := [], settledErr := [], sink := [] }

/-- Bookkeeping of one settlement: the index leaves the in-flight set and is
recorded as succeeded or failed; a failure is also routed to the exception
sink by the `.catch(sendException)` attached to every pooled promise. -/
def settleRecord (s : PoolState) (i : Nat) (ok : Bool) : PoolState :=
  { s with
    inFlight := s.inFlight.erase i,
    settledOk := if ok then i :: s.settledOk else s.settledOk,
    settledErr := if ok then s.settledErr else i :: s.settledErr,
    sink := if ok then s.sink else i :: s.sink }

/-- One validation settles.  `ok = false` means `doValidation` rejected: the
`.catch(sendException)` routes the error to the sink and the pool still sees
a fulfilled promise, so in either case the pool pulls the next URI from the
producer (if any).  Settling an index that is not in flight is a no-op. -/
def poolSettle (s : PoolState) (i : Nat) (ok : Bool) : PoolState :=
  if i ∈ s.inFlight then
    match nextPromise (settleRecord s i ok) with
    | some s2 => s2
    | none => settleRecord s i ok
  else s

/-- States reachable in one batch run: the state right after `pool.start()`,
and anything reachable from it by settling in-flight validations. -/
inductive PoolReach : PoolState → Prop where
  | start (uris : List String) : PoolReach (poolStart uris)
  | settle {s : PoolState} (i : Nat) (ok : Bool) :
      PoolReach s → i ∈ s.inFlight → PoolReach (poolSettle s i ok)

/-- The batch runner's invariant: in-flight indices are distinct indices
below the cursor, every index below the cursor is in flight or settled, and
the pool is as full as the remaining work allows, never above 3. -/
structure PoolInv (s : PoolState) : Prop where
  bound : ∀ j ∈ s.inFlight, j < s.currentIndex
  nodup : s.inFlight.Nodup
  count : s.currentIndex = doneCount s + s.inFlight.length
  le : s.currentIndex ≤ s.uris.length
  fill : s.inFlight.length = min 3 (s.uris.length - doneCount s)

theorem cleanPendingValidation_nextId (s : SchedState) (uri : String) :
    (cleanPendingValidation s uri).nextId = s.nextId := by
  unfold cleanPendingValidation
  cases lookupPending s uri <;> rfl

theorem cleanPendingValidation_now (s : SchedState) (uri : String) :
    (cleanPendingValidation s uri).now = s.now := by
  unfold cleanPendingValidation
  cases lookupPending s uri <;> rfl

theorem cleanPendingValidation_executed (s : SchedState) (uri : String) :
    (cleanPendingValidation s uri).executed = s.executed := by
  unfold cleanPendingValidation
  cases lookupPending s uri <;> rfl

theorem cleanPendingValidation_settled (s : SchedState) (uri : String) :
    (cleanPendingValidation s uri).settled = s.settled := by
  unfold cleanPendingValidation
  cases lookupPending s uri <;> rfl

theorem cleanPendingValidation_timers_sub {s : SchedState} {uri : String}
    {t : TimerEntry} (h : t ∈ (cleanPendingValidation s uri).timers) :
    t ∈ s.timers := by
  unfold cleanPendingValidation at h
  cases hl : lookupPending s uri with
  | none => rw [hl] at h; exact h
  | some tid => rw [hl] at h; exact List.mem_of_mem_filter h

/-- Dead identifiers stay dead across any enabled step. -/
theorem schedStep_dead {s s' : SchedState} {ev : SchedEv} {tid : Nat}
    (hstep : schedStep s ev = some s') (hdead : DeadId s tid) :
    DeadId s' tid := by
  obtain ⟨hlt, htm, hex, hst⟩ := hdead
  cases ev with
  | elapse d =>
      simp only [schedStep, Option.some.injEq] at hstep
      subst hstep
      exact ⟨hlt, htm, hex, hst⟩
  | doValidationEv uri =>
      simp only [schedStep, Option.some.injEq] at hstep
      subst hstep
      refine ⟨?_, ?_, ?_, ?_⟩
      · simp only [doValidation, cleanPendingValidation_nextId]
        omega
      · intro t ht
        simp only [doValidation, List.mem_cons] at ht
        cases ht with
        | inl h =>
            subst h
            simp only [cleanPendingValidation_nextId]
            omega
        | inr h =>
            exact htm t (cleanPendingValidation_timers_sub h)
      · simpa only [doValidation, cleanPendingValidation_executed] using hex
      · simpa only [doValidation, cleanPendingValidation_settled] using hst
  | clearDocumentEv uri =>
      simp only [schedStep, Option.some.injEq] at hstep
      subst hstep
      refine ⟨?_, ?_, ?_, ?_⟩
      · rw [cleanPendingValidation_nextId]; exact hlt
      · intro t ht
        exact htm t (cleanPendingValidation_timers_sub ht)
      · rw [cleanPendingValidation_executed]; exact hex
      · rw [cleanPendingValidation_settled]; exact hst
  | fireTimerEv tid' =>
      simp only [schedStep] at hstep
      split at hstep
      · simp at hstep
      · rename_i t hfind
        split at hstep
        · rename_i hdl
          have htmem : t ∈ s.timers := List.mem_of_find?_eq_some hfind
          have htid : t.tid = tid' := by
            have := List.find?_some hfind
            simpa using this
          have hne : tid' ≠ tid := by
            intro h
            exact htm t htmem (htid.trans h)
          simp only [Option.some.injEq] at hstep
          subst hstep
          refine ⟨hlt, ?_, ?_, ?_⟩
          · intro t2 ht2
            exact htm t2 (List.mem_of_mem_filter ht2)
          · simp only [List.mem_cons]
            intro h
            cases h with
            | inl h => exact hne h.symm
            | inr h => exact hex h
          · simp only [List.mem_cons]
            intro h
            cases h with
            | inl h => exact hne h.symm
            | inr h => exact hst h
        · simp at hstep

theorem schedInv_init : SchedInv initSched := by
  refine ⟨?_, ?_, ?_, ?_, ?_, ?_, ?_⟩ <;> simp [initSched]

theorem find?_filter_ne (v u : String) (h : v ≠ u) :
    ∀ l : List (String × Nat),
      (l.filter (fun p => p.1 ≠ u)).find? (fun p => p.1 = v) =
        l.find? (fun p => p.1 = v) := by
  intro l
  induction l with
  | nil => rfl
  | cons p l ih =>
      by_cases hp : p.1 = u
      · rw [List.filter_cons, if_neg (by simp [hp]),
          List.find?_cons_of_neg _ (by simp [hp]; exact fun hc => h hc.symm)]
        exact ih
      · by_cases hv : p.1 = v
        · rw [List.filter_cons, if_pos (by simp [hp]),
            List.find?_cons_of_pos _ (by simp [hv]),
            List.find?_cons_of_pos _ (by simp [hv])]
        · rw [List.filter_cons, if_pos (by simp [hp]),
            List.find?_cons_of_neg _ (by simp [hv]),
            List.find?_cons_of_neg _ (by simp [hv])]
          exact ih

/-- `lookupPending` finds a pending entry: it is in the map with that key. -/
theorem lookupPending_mem {s : SchedState} {u : String} {tid : Nat}
    (h : lookupPending s u = some tid) : (u, tid) ∈ s.pending := by
  unfold lookupPending at h
  cases hf : s.pending.find? (fun p => p.1 = u) with
  | none => rw [hf] at h; exact absurd h (by simp)
  | some p =>
      rw [hf] at h
      have h2 : p.2 = tid := by simpa using h
      have hmem := List.mem_of_find?_eq_some hf
      have hkey : p.1 = u := by
        have := List.find?_some hf
        simpa using this
      have : p = (u, tid) := by
        cases p
        simp_all
      rw [this] at hmem
      exact hmem

/-- No live timer for `u` survives `cleanPendingValidation u`. -/
theorem clean_no_uri_timer {s : SchedState} (inv : SchedInv s) (u : String) :
    ∀ t ∈ (cleanPendingValidation s u).timers, t.uri ≠ u := by
  intro t ht
  unfold cleanPendingValidation at ht
  cases hl : lookupPending s u with
  | none =>
      rw [hl] at ht
      intro hu
      have := inv.pendingOfTimer t ht
      rw [hu, hl] at this
      exact absurd this (by simp)
  | some tid0 =>
      rw [hl] at ht
      have hmem : t ∈ s.timers := List.mem_of_mem_filter ht
      have hne : t.tid ≠ tid0 := by
        have := List.of_mem_filter ht
        simpa using this
      intro hu
      have := inv.pendingOfTimer t hmem
      rw [hu, hl] at this
      exact hne (by simpa using this.symm)

/-- Timers surviving `cleanPendingValidation` were live before. -/
theorem clean_timers_sublist (s : SchedState) (u : String) :
    (cleanPendingValidation s u).timers.Sublist s.timers := by
  unfold cleanPendingValidation
  cases lookupPending s u with
  | none => exact List.Sublist.refl _
  | some tid0 => exact List.filter_sublist _

/-- Pending entries surviving `cleanPendingValidation` were pending
before. -/
theorem clean_pending_sublist (s : SchedState) (u : String) :
    (cleanPendingValidation s u).pending.Sublist s.pending := by
  unfold cleanPendingValidation
  cases lookupPending s u with
  | none => exact List.Sublist.refl _
  | some tid0 => exact List.filter_sublist _

/-- No pending entry for `u` survives `cleanPendingValidation u`. -/
theorem clean_pending_keys (s : SchedState) (u : String) :
    ∀ p ∈ (cleanPendingValidation s u).pending, p.1 ≠ u := by
  intro p hp
  unfold cleanPendingValidation at hp
  cases hl : lookupPending s u with
  | none =>
      rw [hl] at hp
      intro hc
      unfold lookupPending at hl
      cases hf : s.pending.find? (fun q => q.1 = u) with
      | none =>
          have hnone := List.find?_eq_none.mp hf p hp
          exact hnone (by simp [hc])
      | some q =>
          rw [hf] at hl
          simp at hl
  | some tid0 =>
      rw [hl] at hp
      have := List.of_mem_filter hp
      simpa using this

/-- For keys other than `u`, `cleanPendingValidation u` does not change the
pending lookup. -/
theorem clean_lookup_ne {s : SchedState} {u v : String} (h : v ≠ u) :
    lookupPending (cleanPendingValidation s u) v = lookupPending s v := by
  unfold cleanPendingValidation
  cases hl : lookupPending s u with
  | none => rfl
  | some tid0 =>
      unfold lookupPending
      rw [find?_filter_ne v u h]

/-- `cleanPendingValidation u` leaves no pending entry for `u`. -/
theorem clean_lookup_self (s : SchedState) (u : String) :
    lookupPending (cleanPendingValidation s u) u = none := by
  unfold lookupPending
  cases hf : (cleanPendingValidation s u).pending.find? (fun p => p.1 = u)
      with
  | none => rfl
  | some p =>
      have hmem := List.mem_of_find?_eq_some hf
      have hkey : p.1 = u := by
        have := List.find?_some hf
        simpa using this
      exact absurd hkey (clean_pending_keys s u p hmem)

/-- In one state, two live timers with the same URI are the same timer. -/
theorem timer_uri_inj {s : SchedState} (inv : SchedInv s)
    {t1 t2 : TimerEntry} (h1 : t1 ∈ s.timers) (h2 : t2 ∈ s.timers)
    (h : t1.uri = t2.uri) : t1.tid = t2.tid := by
  have e1 := inv.pendingOfTimer t1 h1
  have e2 := inv.pendingOfTimer t2 h2
  rw [h] at e1
  rw [e1] at e2
  simpa using e2

/-- The timer of a surviving pending entry survives
`cleanPendingValidation u`. -/
theorem clean_timer_of_pending {s : SchedState} (inv : SchedInv s)
    (u : String) :
    ∀ p ∈ (cleanPendingValidation s u).pending,
      ∃ t ∈ (cleanPendingValidation s u).timers, t.tid = p.2 ∧ t.uri = p.1
    := by
  intro p hp
  have hpmem : p ∈ s.pending := (clean_pending_sublist s u).mem hp
  have hpkey : p.1 ≠ u := clean_pending_keys s u p hp
  obtain ⟨t, htmem, htid, huri⟩ := inv.timerOfPending p hpmem
  refine ⟨t, ?_, htid, huri⟩
  unfold cleanPendingValidation
  cases hl : lookupPending s u with
  | none => exact htmem
  | some tid0 =>
      obtain ⟨t0, ht0mem, ht0id, ht0uri⟩ :=
        inv.timerOfPending (u, tid0) (lookupPending_mem hl)
      have hne : t.tid ≠ tid0 := by
        intro he
        have : t = t0 := List.inj_on_of_nodup_map inv.timerIdsNodup
          htmem ht0mem (by rw [he, ht0id])
        rw [this] at huri
        exact hpkey (huri.symm.trans ht0uri)
      refine List.mem_filter.mpr ⟨htmem, by simpa using hne⟩

/-- `cleanPendingValidation` preserves the scheduler invariant. -/
theorem clean_inv {s : SchedState} (inv : SchedInv s) (u : String) :
    SchedInv (cleanPendingValidation s u) := by
  refine ⟨?_, ?_, ?_, ?_, ?_, ?_, ?_⟩
  · intro t ht
    have htm : t ∈ s.timers := (clean_timers_sublist s u).mem ht
    have hne : t.uri ≠ u := clean_no_uri_timer inv u t ht
    rw [clean_lookup_ne hne]
    exact inv.pendingOfTimer t htm
  · exact clean_timer_of_pending inv u
  · exact inv.timerIdsNodup.sublist ((clean_timers_sublist s u).map _)
  · intro t ht
    rw [cleanPendingValidation_nextId]
    exact inv.timerIdLt t ((clean_timers_sublist s u).mem ht)
  · intro x hx
    rw [cleanPendingValidation_nextId]
    rw [cleanPendingValidation_executed] at hx
    exact inv.executedLt x hx
  · intro x hx
    rw [cleanPendingValidation_nextId]
    rw [cleanPendingValidation_settled] at hx
    exact inv.settledLt x hx
  · intro p hp
    rw [cleanPendingValidation_executed, cleanPendingValidation_settled]
    exact inv.pendingFresh p ((clean_pending_sublist s u).mem hp)

theorem cleanPendingValidation_pending_sub {s : SchedState} {u : String}
    {p : String × Nat} (h : p ∈ (cleanPendingValidation s u).pending) :
    p ∈ s.pending :=
  (clean_pending_sublist s u).mem h

/-- `doValidation` preserves the scheduler invariant. -/
theorem doValidation_inv {s : SchedState} (inv : SchedInv s) (u : String) :
    SchedInv (doValidation s u) := by
  have invc := clean_inv inv u
  have htimers : (doValidation s u).timers =
      ⟨(cleanPendingValidation s u).nextId, u,
        (cleanPendingValidation s u).now + VALIDATION_DELAY_MS⟩ ::
        (cleanPendingValidation s u).timers := rfl
  have hpend : (doValidation s u).pending =
      (u, (cleanPendingValidation s u).nextId) ::
        (cleanPendingValidation s u).pending := rfl
  have hexec : (doValidation s u).executed =
      (cleanPendingValidation s u).executed := rfl
  have hsettled : (doValidation s u).settled =
      (cleanPendingValidation s u).settled := rfl
  refine ⟨?_, ?_, ?_, ?_, ?_, ?_, ?_⟩
  · intro t ht
    rw [htimers, List.mem_cons] at ht
    cases ht with
    | inl h =>
        subst h
        show lookupPending (doValidation s u) u = _
        unfold lookupPending doValidation
        rw [List.find?_cons_of_pos _ (by simp)]
        rfl
    | inr h =>
        have hne : t.uri ≠ u := clean_no_uri_timer inv u t h
        show lookupPending (doValidation s u) t.uri = some t.tid
        unfold lookupPending doValidation
        rw [List.find?_cons_of_neg _ (by simpa using fun hc => hne hc.symm)]
        exact invc.pendingOfTimer t h
  · intro p hp
    rw [hpend, List.mem_cons] at hp
    rw [htimers]
    cases hp with
    | inl h =>
        subst h
        exact ⟨⟨(cleanPendingValidation s u).nextId, u,
          (cleanPendingValidation s u).now + VALIDATION_DELAY_MS⟩,
          List.mem_cons_self _ _, rfl, rfl⟩
    | inr h =>
        obtain ⟨t, htm, htid, huri⟩ := invc.timerOfPending p h
        exact ⟨t, List.mem_cons_of_mem _ htm, htid, huri⟩
  · show ((cleanPendingValidation s u).nextId ::
      (cleanPendingValidation s u).timers.map TimerEntry.tid).Nodup
    rw [List.nodup_cons]
    refine ⟨?_, invc.timerIdsNodup⟩
    intro hmem
    rw [List.mem_map] at hmem
    obtain ⟨t, htm, htid⟩ := hmem
    have := invc.timerIdLt t htm
    omega
  · intro t ht
    rw [htimers, List.mem_cons] at ht
    show t.tid < (cleanPendingValidation s u).nextId + 1
    cases ht with
    | inl h => subst h; exact Nat.lt_succ_self _
    | inr h =>
        have := invc.timerIdLt t h
        omega
  · intro x hx
    show x < (cleanPendingValidation s u).nextId + 1
    have := invc.executedLt x hx
    omega
  · intro x hx
    show x < (cleanPendingValidation s u).nextId + 1
    have := invc.settledLt x hx
    omega
  · intro p hp
    rw [hpend, List.mem_cons] at hp
    rw [hexec, hsettled]
    cases hp with
    | inl h =>
        subst h
        constructor
        · intro hc
          have := invc.executedLt _ hc
          omega
        · intro hc
          have := invc.settledLt _ hc
          omega
    | inr h => exact invc.pendingFresh p h

/-- Every enabled scheduler step preserves the invariant. -/
theorem schedStep_inv {s s' : SchedState} {ev : SchedEv}
    (hstep : schedStep s ev = some s') (inv : SchedInv s) : SchedInv s' := by
  cases ev with
  | elapse d =>
      simp only [schedStep, Option.some.injEq] at hstep
      subst hstep
      exact ⟨inv.pendingOfTimer, inv.timerOfPending, inv.timerIdsNodup,
        inv.timerIdLt, inv.executedLt, inv.settledLt, inv.pendingFresh⟩
  | doValidationEv u =>
      simp only [schedStep, Option.some.injEq] at hstep
      subst hstep
      exact doValidation_inv inv u
  | clearDocumentEv u =>
      simp only [schedStep, Option.some.injEq] at hstep
      subst hstep
      exact clean_inv inv u
  | fireTimerEv tid0 =>
      simp only [schedStep] at hstep
      split at hstep
      · simp at hstep
      · rename_i t0 hfind
        split at hstep
        · rename_i hdl
          have ht0mem : t0 ∈ s.timers := List.mem_of_find?_eq_some hfind
          have ht0id : t0.tid = tid0 := by
            have := List.find?_some hfind
            simpa using this
          simp only [Option.some.injEq] at hstep
          subst hstep
          have timerFresh : ∀ p ∈ s.pending, p.1 ≠ t0.uri →
              ∃ t ∈ s.timers, t.tid = p.2 ∧ t.uri = p.1 ∧ t.tid ≠ tid0 := by
            intro p hp hkey
            obtain ⟨t, htm, htid, huri⟩ := inv.timerOfPending p hp
            refine ⟨t, htm, htid, huri, ?_⟩
            intro he
            have : t = t0 := List.inj_on_of_nodup_map inv.timerIdsNodup
              htm ht0mem (by rw [he, ht0id])
            rw [this] at huri
            exact hkey (huri.symm ▸ rfl)
          refine ⟨?_, ?_, ?_, ?_, ?_, ?_, ?_⟩
          · intro t ht
            have htm : t ∈ s.timers := List.mem_of_mem_filter ht
            have hne : t.tid ≠ tid0 := by
              have := List.of_mem_filter ht
              simpa using this
            have huri : t.uri ≠ t0.uri := by
              intro he
              exact hne ((timer_uri_inj inv htm ht0mem he).trans ht0id)
            show lookupPending _ t.uri = some t.tid
            unfold lookupPending
            rw [show (s.pending.filter (fun p => p.1 ≠ t0.uri)).find?
                (fun p => p.1 = t.uri) = s.pending.find?
                (fun p => p.1 = t.uri) from find?_filter_ne t.uri t0.uri
                huri s.pending]
            exact inv.pendingOfTimer t htm
          · intro p hp
            have hpm : p ∈ s.pending := List.mem_of_mem_filter hp
            have hkey : p.1 ≠ t0.uri := by
              have := List.of_mem_filter hp
              simpa using this
            obtain ⟨t, htm, htid, huri, hne⟩ := timerFresh p hpm hkey
            refine ⟨t, ?_, htid, huri⟩
            exact List.mem_filter.mpr ⟨htm, by simpa using hne⟩
          · exact inv.timerIdsNodup.sublist ((List.filter_sublist _).map _)
          · intro t ht
            exact inv.timerIdLt t (List.mem_of_mem_filter ht)
          · intro x hx
            rw [List.mem_cons] at hx
            cases hx with
            | inl h => subst h; exact ht0id ▸ inv.timerIdLt t0 ht0mem
            | inr h => exact inv.executedLt x h
          · intro x hx
            rw [List.mem_cons] at hx
            cases hx with
            | inl h => subst h; exact ht0id ▸ inv.timerIdLt t0 ht0mem
            | inr h => exact inv.settledLt x h
          · intro p hp
            have hpm : p ∈ s.pending := List.mem_of_mem_filter hp
            have hkey : p.1 ≠ t0.uri := by
              have := List.of_mem_filter hp
              simpa using this
            obtain ⟨t, htm, htid, huri, hne⟩ := timerFresh p hpm hkey
            have hp2 : p.2 ≠ tid0 := htid ▸ hne
            obtain ⟨hex, hst⟩ := inv.pendingFresh p hpm
            constructor
            · rw [List.mem_cons]
              intro h
              cases h with
              | inl h => exact hp2 h
              | inr h => exact hex h
            · rw [List.mem_cons]
              intro h
              cases h with
              | inl h => exact hp2 h
              | inr h => exact hst h
        · simp at hstep

/-- Every reachable scheduler state satisfies the invariant. -/
theorem schedReach_inv {s : SchedState} (h : SchedReach s) : SchedInv s := by
  induction h with
  | init => exact schedInv_init
  | step ev _ hstep ih => exact schedStep_inv hstep ih

/-- Dead identifiers stay dead across any enabled run. -/
theorem schedRun_dead {tid : Nat} :
    ∀ {evs : List SchedEv} {s s' : SchedState},
      schedRun s evs = some s' → DeadId s tid → DeadId s' tid := by
  intro evs
  induction evs with
  | nil =>
      intro s s' hrun hdead
      simp only [schedRun, Option.some.injEq] at hrun
      subst hrun
      exact hdead
  | cons ev evs ih =>
      intro s s' hrun hdead
      simp only [schedRun] at hrun
      cases hstep : schedStep s ev with
      | none => rw [hstep] at hrun; exact absurd hrun (by simp)
      | some s1 =>
          rw [hstep] at hrun
          exact ih hrun (schedStep_dead hstep hdead)

theorem nextPromise_uris (s : PoolState) {s1 : PoolState}
    (h : nextPromise s = some s1) : s1.uris = s.uris := by
  unfold nextPromise at h
  split at h
  · simp only [Option.some.injEq] at h
    subst h
    rfl
  · simp at h

theorem spawnNext_uris (s : PoolState) : (spawnNext s).uris = s.uris := rfl

theorem spawnNext_currentIndex (s : PoolState) :
    (spawnNext s).currentIndex = s.currentIndex + 1 := rfl

theorem spawnNext_inFlight (s : PoolState) :
    (spawnNext s).inFlight = s.inFlight ++ [s.currentIndex] := rfl

theorem spawnNext_doneCount (s : PoolState) :
    doneCount (spawnNext s) = doneCount s := rfl

theorem poolFillAux_uris : ∀ (n : Nat) (s : PoolState),
    (poolFillAux n s).uris = s.uris := by
  intro n
  induction n with
  | zero => intro s; rfl
  | succ n ih =>
      intro s
      unfold poolFillAux
      split
      · cases hn : nextPromise s with
        | none => rfl
        | some s1 => rw [ih s1, nextPromise_uris s hn]
      · rfl

theorem settleRecord_uris (s : PoolState) (i : Nat) (ok : Bool) :
    (settleRecord s i ok).uris = s.uris := rfl

theorem settleRecord_currentIndex (s : PoolState) (i : Nat) (ok : Bool) :
    (settleRecord s i ok).currentIndex = s.currentIndex := rfl

theorem settleRecord_inFlight (s : PoolState) (i : Nat) (ok : Bool) :
    (settleRecord s i ok).inFlight = s.inFlight.erase i := rfl

theorem settleRecord_doneCount (s : PoolState) (i : Nat) (ok : Bool) :
    doneCount (settleRecord s i ok) = doneCount s + 1 := by
  cases ok <;> simp [settleRecord, doneCount] <;> omega

/-- `pool.start()` establishes the invariant. -/
theorem poolStart_inv (uris : List String) : PoolInv (poolStart uris) := by
  by_cases h0 : 0 < uris.length
  · by_cases h1 : 1 < uris.length
    · by_cases h2 : 2 < uris.length
      · have he : poolStart uris =
            { uris := uris, currentIndex := 3, inFlight := [0, 1, 2],
              settledOk := [], settledErr := [], sink := [] } := by
          simp [poolStart, poolFillAux, nextPromise, spawnNext, h0, h1, h2]
        rw [he]
        refine ⟨?_, ?_, ?_, ?_, ?_⟩ <;>
          simp [doneCount] <;> omega
      · have he : poolStart uris =
            { uris := uris, currentIndex := 2, inFlight := [0, 1],
              settledOk := [], settledErr := [], sink := [] } := by
          simp [poolStart, poolFillAux, nextPromise, spawnNext, h0, h1, h2]
        rw [he]
        refine ⟨?_, ?_, ?_, ?_, ?_⟩ <;>
          simp [doneCount] <;> omega
    · have he : poolStart uris =
          { uris := uris, currentIndex := 1, inFlight := [0],
            settledOk := [], settledErr := [], sink := [] } := by
        simp [poolStart, poolFillAux, nextPromise, spawnNext, h0, h1]
      rw [he]
      refine ⟨?_, ?_, ?_, ?_, ?_⟩ <;>
        simp [doneCount] <;> omega
  · have he : poolStart uris =
        { uris := uris, currentIndex := 0, inFlight := [],
          settledOk := [], settledErr := [], sink := [] } := by
      simp [poolStart, poolFillAux, nextPromise, spawnNext, h0]
    rw [he]
    refine ⟨?_, ?_, ?_, ?_, ?_⟩ <;>
      simp [doneCount] <;> omega

/-- Settling an in-flight validation preserves the invariant. -/
theorem poolSettle_inv {s : PoolState} (inv : PoolInv s) (i : Nat)
    (ok : Bool) (hmem : i ∈ s.inFlight) : PoolInv (poolSettle s i ok) := by
  obtain ⟨bound, nodup, count, le, fill⟩ := inv
  have hero : (s.inFlight.erase i).length = s.inFlight.length - 1 :=
    List.length_erase_of_mem hmem
  have hpos : 0 < s.inFlight.length := List.length_pos.mpr
    (List.ne_nil_of_mem hmem)
  have hsub : ∀ j, j ∈ s.inFlight.erase i → j ∈ s.inFlight := by
    intro j hj
    exact List.mem_of_mem_erase hj
  unfold poolSettle
  rw [if_pos hmem]
  by_cases hcur :
      (settleRecord s i ok).currentIndex < (settleRecord s i ok).uris.length
  · have hnp : nextPromise (settleRecord s i ok) =
        some (spawnNext (settleRecord s i ok)) := by
      unfold nextPromise
      rw [if_pos hcur]
    rw [hnp]
    rw [settleRecord_currentIndex, settleRecord_uris] at hcur
    show PoolInv (spawnNext (settleRecord s i ok))
    refine ⟨?_, ?_, ?_, ?_, ?_⟩
    · intro j hj
      rw [spawnNext_inFlight, settleRecord_inFlight,
        settleRecord_currentIndex] at hj
      rw [spawnNext_currentIndex, settleRecord_currentIndex]
      rw [List.mem_append, List.mem_singleton] at hj
      cases hj with
      | inl hj => exact Nat.lt_succ_of_lt (bound j (hsub j hj))
      | inr hj => omega
    · rw [spawnNext_inFlight, settleRecord_inFlight,
        settleRecord_currentIndex]
      refine List.Nodup.append (List.Nodup.erase i nodup)
        (List.nodup_singleton _) ?_
      intro a ha hb
      rw [List.mem_singleton] at hb
      subst hb
      exact absurd (bound _ (hsub _ ha)) (lt_irrefl _)
    · rw [spawnNext_currentIndex, settleRecord_currentIndex,
        spawnNext_doneCount, settleRecord_doneCount,
        spawnNext_inFlight, settleRecord_inFlight,
        settleRecord_currentIndex]
      rw [List.length_append, List.length_singleton, hero]
      omega
    · rw [spawnNext_currentIndex, settleRecord_currentIndex,
        spawnNext_uris, settleRecord_uris]
      omega
    · rw [spawnNext_inFlight, settleRecord_inFlight,
        settleRecord_currentIndex, spawnNext_doneCount,
        settleRecord_doneCount, spawnNext_uris, settleRecord_uris]
      rw [List.length_append, List.length_singleton, hero]
      omega
  · have hnp : nextPromise (settleRecord s i ok) = none := by
      unfold nextPromise
      rw [if_neg hcur]
    rw [hnp]
    rw [settleRecord_currentIndex, settleRecord_uris] at hcur
    show PoolInv (settleRecord s i ok)
    refine ⟨?_, ?_, ?_, ?_, ?_⟩
    · intro j hj
      rw [settleRecord_inFlight] at hj
      rw [settleRecord_currentIndex]
      exact bound j (hsub j hj)
    · rw [settleRecord_inFlight]
      exact List.Nodup.erase i nodup
    · rw [settleRecord_currentIndex, settleRecord_doneCount,
        settleRecord_inFlight, hero]
      omega
    · rw [settleRecord_currentIndex, settleRecord_uris]
      exact le
    · rw [settleRecord_inFlight, settleRecord_uris,
        settleRecord_doneCount, hero]
      omega

/-- Every reachable state of a batch run satisfies the invariant. -/
theorem poolReach_inv {s : PoolState} (h : PoolReach s) : PoolInv s := by
  induction h with
  | start uris => exact poolStart_inv uris
  | settle i ok _ hmem ih => exact poolSettle_inv ih i ok hmem

/-! ### Field equations for `doValidation` and further helpers -/

theorem doValidation_timers (s : SchedState) (u : String) :
    (doValidation s u).timers =
      ⟨s.nextId, u, s.now + VALIDATION_DELAY_MS⟩ ::
        (cleanPendingValidation s u).timers := by
  rw [show (doValidation s u).timers =
      ⟨(cleanPendingValidation s u).nextId, u,
        (cleanPendingValidation s u).now + VALIDATION_DELAY_MS⟩ ::
        (cleanPendingValidation s u).timers from rfl,
    cleanPendingValidation_nextId, cleanPendingValidation_now]

theorem doValidation_pending (s : SchedState) (u : String) :
    (doValidation s u).pending =
      (u, s.nextId) :: (cleanPendingValidation s u).pending := by
  rw [show (doValidation s u).pending =
      (u, (cleanPendingValidation s u).nextId) ::
        (cleanPendingValidation s u).pending from rfl,
    cleanPendingValidation_nextId]

theorem doValidation_nextId (s : SchedState) (u : String) :
    (doValidation s u).nextId = s.nextId + 1 := by
  rw [show (doValidation s u).nextId =
      (cleanPendingValidation s u).nextId + 1 from rfl,
    cleanPendingValidation_nextId]

theorem doValidation_now (s : SchedState) (u : String) :
    (doValidation s u).now = s.now := by
  rw [show (doValidation s u).now = (cleanPendingValidation s u).now from rfl,
    cleanPendingValidation_now]

theorem doValidation_executed (s : SchedState) (u : String) :
    (doValidation s u).executed = s.executed := by
  rw [show (doValidation s u).executed =
      (cleanPendingValidation s u).executed from rfl,
    cleanPendingValidation_executed]

theorem doValidation_settled (s : SchedState) (u : String) :
    (doValidation s u).settled = s.settled := by
  rw [show (doValidation s u).settled =
      (cleanPendingValidation s u).settled from rfl,
    cleanPendingValidation_settled]

/-- `doValidation(uri)` records its fresh timer under `uri`. -/
theorem doValidation_lookup_self (s : SchedState) (u : String) :
    lookupPending (doValidation s u) u = some s.nextId := by
  unfold lookupPending
  rw [doValidation_pending, List.find?_cons_of_pos _ (by simp)]
  rfl

theorem clean_timers_of_lookup {s : SchedState} {u : String} {tid : Nat}
    (h : lookupPending s u = some tid) :
    (cleanPendingValidation s u).timers =
      s.timers.filter (fun t => t.tid ≠ tid) := by
  unfold cleanPendingValidation
  rw [h]

theorem schedInv_set_now {s : SchedState} (inv : SchedInv s) (n : Nat) :
    SchedInv { s with now := n } :=
  ⟨inv.pendingOfTimer, inv.timerOfPending, inv.timerIdsNodup, inv.timerIdLt,
    inv.executedLt, inv.settledLt, inv.pendingFresh⟩

/-- The `try` block of `validate` performs only the analytics event and the
engine invocation. -/
theorem validateTryBlock_effects (env : ValidateEnv) (doc : Document) :
    ∀ x ∈ (validateTryBlock env doc).1,
      (∃ a l dt, x = Eff.sendAnalytics a l dt) ∨
        ∃ u, x = Eff.invokeValidationEngine u := by
  intro x hx
  unfold validateTryBlock at hx
  cases hy : env.getYamlDocument with
  | error e =>
      rw [hy] at hx
      simp at hx
  | ok y =>
      rw [hy] at hx
      simp only [] at hx
      cases he : env.engineResult y with
      | ok v =>
          rw [he] at hx
          simp at hx
          cases hx with
          | inl h => exact Or.inl ⟨_, _, _, h⟩
          | inr h => exact Or.inr ⟨_, h⟩
      | error e =>
          rw [he] at hx
          simp at hx
          cases hx with
          | inl h => exact Or.inl ⟨_, _, _, h⟩
          | inr h => exact Or.inr ⟨_, h⟩

/-! ### Claim theorems -/

/-- C2: a file-changed event on a URI with recorded children first clears
each child's partial schema fragment, then clears all relations for which
the URI is the parent, then schedules exactly one revalidation of the URI;
with no recorded children only the revalidation is scheduled and neither
fragments nor relations are touched. -/
theorem C2_onFileChanged_invalidation (children : Option (List String))
    (uri : String) :
    (∀ cs, children = some cs → cs ≠ [] →
      onFileChanged children uri =
        cs.map Eff.clearPartialSchema ++
          [Eff.clearRelations uri, Eff.scheduleValidation uri]) ∧
    ((children = none ∨ children = some []) →
      onFileChanged children uri = [Eff.scheduleValidation uri]) ∧
    (onFileChanged children uri).count (Eff.scheduleValidation uri) = 1 := by
  refine ⟨?_, ?_, ?_⟩
  · intro cs hc hne
    subst hc
    unfold onFileChanged
    simp only []
    rw [if_pos (by simpa using fun h => hne (List.length_eq_zero.mp h))]
    simp
  · intro h
    cases h with
    | inl h => subst h; rfl
    | inr h => subst h; rfl
  · unfold onFileChanged
    cases children with
    | none => simp
    | some cs =>
        simp only []
        by_cases h : cs.length ≠ 0
        · rw [if_pos h, List.count_append, List.count_append]
          have h1 : (cs.map Eff.clearPartialSchema).count
              (Eff.scheduleValidation uri) = 0 := by
            rw [List.count_eq_zero]
            intro hmem
            rw [List.mem_map] at hmem
            obtain ⟨a, _, ha⟩ := hmem
            exact absurd ha (by simp)
          rw [h1]
          simp
        · rw [if_neg h]
          simp

/-- C2 witness. -/
theorem C2_onFileChanged_invalidation_witness :
    onFileChanged (some ["file:///c1.yaml", "file:///c2.yaml"])
        "file:///p.yaml" =
      [Eff.clearPartialSchema "file:///c1.yaml",
       Eff.clearPartialSchema "file:///c2.yaml",
       Eff.clearRelations "file:///p.yaml",
       Eff.scheduleValidation "file:///p.yaml"] ∧
    onFileChanged (some []) "file:///q.yaml" =
      [Eff.scheduleValidation "file:///q.yaml"] :=
  ⟨(C2_onFileChanged_invalidation (some ["file:///c1.yaml",
      "file:///c2.yaml"]) "file:///p.yaml").1 _ rfl (by decide),
   (C2_onFileChanged_invalidation (some []) "file:///q.yaml").2.1
      (Or.inr rfl)⟩

/-- C4: whether the document is unavailable, the parsed representation
cannot be obtained, or the references engine throws, `findReferences`
answers the structured error result carrying the caught message (after
reporting to the exception sink) instead of propagating the failure. -/
theorem C4_findReferences_neutral_fallback (env : RefEnv) :
    (env.textDocument = none →
      ∃ msg, findReferences env =
        ([Eff.sendException msg], RefResult.responseError 1 msg)) ∧
    (∀ doc e, env.textDocument = some doc →
      env.getYamlDocument doc.uri = Except.error e →
      findReferences env =
        ([Eff.sendException e.message],
         RefResult.responseError 1 e.message)) ∧
    (∀ doc y e, env.textDocument = some doc →
      env.getYamlDocument doc.uri = Except.ok y →
      env.getReferences doc y = Except.error e →
      findReferences env =
        ([Eff.sendException e.message],
         RefResult.responseError 1 e.message)) := by
  refine ⟨?_, ?_, ?_⟩
  · intro h
    refine ⟨"Cannot read property of undefined", ?_⟩
    unfold findReferences findReferencesTryBlock
    rw [h]
    rfl
  · intro doc e hdoc herr
    unfold findReferences findReferencesTryBlock
    rw [hdoc]
    simp only []
    rw [show (do
        let yamlDocument ← env.getYamlDocument doc.uri
        env.getReferences doc yamlDocument) =
          Except.error e from by rw [herr]; rfl]
  · intro doc y e hdoc hy herr
    unfold findReferences findReferencesTryBlock
    rw [hdoc]
    simp only []
    rw [show (do
        let yamlDocument ← env.getYamlDocument doc.uri
        env.getReferences doc yamlDocument) =
          Except.error e from by rw [hy]; simpa using herr]

/-- C4 witness. -/
theorem C4_findReferences_neutral_fallback_witness :
    findReferences
        { textDocument := some ⟨"file:///a.yaml", "Resources: {}"⟩,
          getYamlDocument := fun _ =>
            Except.error (JSError.error "parse failed"),
          getReferences := fun _ _ => Except.ok [] } =
      ([Eff.sendException "parse failed"],
       RefResult.responseError 1 "parse failed") :=
  (C4_findReferences_neutral_fallback _).2.1
    ⟨"file:///a.yaml", "Resources: {}"⟩ (JSError.error "parse failed")
    rfl rfl

/-- C5: a failure caught by the debounced validation body leads to no
diagnostics being published at this boundary, and to exactly one
out-of-band notification when (and only when) the failure is the
tool-failed-to-execute condition; the catch clause swallows every other
failure, so `validate` always returns an effect list. -/
theorem C5_validate_failure_boundary (env : ValidateEnv) (uri : String)
    (doc : Document) (e : JSError)
    (hdoc : env.textDocument = some doc)
    (hlen : doc.text.length ≠ 0)
    (herr : (validateTryBlock env doc).2 = some e) :
    (∀ u ds, Eff.sendDiagnostics u ds ∉ validate env uri) ∧
    (validate env uri).count
        (Eff.sendNotification "custom/cfn-lint-installation-error") =
      (if e = JSError.cfnLintFailedToExecuteError then 1 else 0) := by
  have hval : validate env uri = (validateTryBlock env doc).1 ++
      (match (validateTryBlock env doc).2 with
       | some JSError.cfnLintFailedToExecuteError =>
           [Eff.sendNotification "custom/cfn-lint-installation-error"]
       | _ => []) := by
    unfold validate
    rw [hdoc]
    simp only []
    rw [if_neg hlen]
  rw [hval, herr]
  constructor
  · intro u ds hmem
    rw [List.mem_append] at hmem
    cases hmem with
    | inl h =>
        rcases validateTryBlock_effects env doc _ h with
          ⟨a, l, dt, hx⟩ | ⟨v, hx⟩ <;> exact absurd hx (by simp)
    | inr h =>
        cases e <;> simp at h
  · rw [List.count_append]
    have h1 : (validateTryBlock env doc).1.count
        (Eff.sendNotification "custom/cfn-lint-installation-error") = 0 := by
      rw [List.count_eq_zero]
      intro hmem
      rcases validateTryBlock_effects env doc _ hmem with
        ⟨a, l, dt, hx⟩ | ⟨v, hx⟩ <;> exact absurd hx (by simp)
    rw [h1]
    cases e <;> simp

/-- C5 witness. -/
theorem C5_validate_failure_boundary_witness :
    (∀ u ds, Eff.sendDiagnostics u ds ∉ validate
      { textDocument := some ⟨"file:///a.yaml", "Resources: x"⟩,
        getYamlDocument := Except.ok ⟨some "SAM"⟩,
        engineResult := fun _ =>
          Except.error JSError.cfnLintFailedToExecuteError }
      "file:///a.yaml") ∧
    (validate
      { textDocument := some ⟨"file:///a.yaml", "Resources: x"⟩,
        getYamlDocument := Except.ok ⟨some "SAM"⟩,
        engineResult := fun _ =>
          Except.error JSError.cfnLintFailedToExecuteError }
      "file:///a.yaml").count
        (Eff.sendNotification "custom/cfn-lint-installation-error") =
      (if (JSError.cfnLintFailedToExecuteError :
          JSError) = JSError.cfnLintFailedToExecuteError then 1 else 0) :=
  C5_validate_failure_boundary _ "file:///a.yaml"
    ⟨"file:///a.yaml", "Resources: x"⟩
    JSError.cfnLintFailedToExecuteError rfl (by decide) rfl

/-- C6: a document whose text has length 0 makes `validate` publish an
empty diagnostics set and return: no validation engine invocation, no
`validateDocument` analytics event, no fragment or relation effect; and the
case reaches `validate` only through the normal debounce path, since
`doValidation` merely arms a timer (the executed set is unchanged and a
pending handle for the URI is recorded). -/
theorem C6_empty_text_skips_engine (env : ValidateEnv) (uri : String)
    (doc : Document) (hdoc : env.textDocument = some doc)
    (hlen : doc.text.length = 0) :
    validate env uri = [Eff.sendDiagnostics doc.uri []] ∧
    (∀ u, Eff.invokeValidationEngine u ∉ validate env uri) ∧
    (∀ a l dt, Eff.sendAnalytics a l dt ∉ validate env uri) ∧
    (∀ u, Eff.clearPartialSchema u ∉ validate env uri) ∧
    (∀ u, Eff.clearRelations u ∉ validate env uri) ∧
    (∀ s : SchedState, (doValidation s uri).executed = s.executed ∧
      lookupPending (doValidation s uri) uri = some s.nextId) := by
  have hval : validate env uri = [Eff.sendDiagnostics doc.uri []] := by
    unfold validate
    rw [hdoc]
    simp only []
    rw [if_pos hlen]
  refine ⟨hval, ?_, ?_, ?_, ?_, ?_⟩
  · intro u h
    rw [hval] at h
    simp at h
  · intro a l dt h
    rw [hval] at h
    simp at h
  · intro u h
    rw [hval] at h
    simp at h
  · intro u h
    rw [hval] at h
    simp at h
  · intro s
    exact ⟨doValidation_executed s uri, doValidation_lookup_self s uri⟩

/-- C6 witness. -/
theorem C6_empty_text_skips_engine_witness :
    validate
      { textDocument := some ⟨"file:///empty.yaml", ""⟩,
        getYamlDocument := Except.ok ⟨none⟩,
        engineResult := fun _ => Except.ok () }
      "file:///empty.yaml" =
      [Eff.sendDiagnostics "file:///empty.yaml" []] :=
  (C6_empty_text_skips_engine _ "file:///empty.yaml"
    ⟨"file:///empty.yaml", ""⟩ rfl rfl).1

/-- C7: `clearDocument(uri)` cancels any pending validation for the URI,
clears the document from the store, publishes an empty diagnostics set, and
clears the partial schema fragment of each recorded child; it clears no
relations and schedules no revalidation, and the cancellation removes the
URI's pending handle in the scheduler. -/
theorem C7_clearDocument_frame (children : Option (List String))
    (uri : String) :
    clearDocument children uri =
      [Eff.cancelPendingValidation uri, Eff.clearDocStore uri,
       Eff.sendDiagnostics uri []] ++
        (children.getD []).map Eff.clearPartialSchema ∧
    (∀ u, Eff.clearRelations u ∉ clearDocument children uri) ∧
    (∀ u, Eff.scheduleValidation u ∉ clearDocument children uri) ∧
    (∀ s : SchedState,
      lookupPending (cleanPendingValidation s uri) uri = none) := by
  have heq : clearDocument children uri =
      [Eff.cancelPendingValidation uri, Eff.clearDocStore uri,
       Eff.sendDiagnostics uri []] ++
        (children.getD []).map Eff.clearPartialSchema := by
    unfold clearDocument
    cases children with
    | none => rfl
    | some cs =>
        cases cs with
        | nil => rfl
        | cons c cs => simp
  refine ⟨heq, ?_, ?_, fun s => clean_lookup_self s uri⟩
  · intro u h
    rw [heq] at h
    rw [List.mem_append] at h
    cases h with
    | inl h => simp at h
    | inr h =>
        rw [List.mem_map] at h
        obtain ⟨a, _, ha⟩ := h
        exact absurd ha (by simp)
  · intro u h
    rw [heq] at h
    rw [List.mem_append] at h
    cases h with
    | inl h => simp at h
    | inr h =>
        rw [List.mem_map] at h
        obtain ⟨a, _, ha⟩ := h
        exact absurd ha (by simp)

/-- C7 witness. -/
theorem C7_clearDocument_frame_witness :
    clearDocument (some ["file:///c1.yaml"]) "file:///d.yaml" =
      [Eff.cancelPendingValidation "file:///d.yaml",
       Eff.clearDocStore "file:///d.yaml",
       Eff.sendDiagnostics "file:///d.yaml" []] ++
        ((some ["file:///c1.yaml"] : Option (List String)).getD []).map
          Eff.clearPartialSchema :=
  (C7_clearDocument_frame (some ["file:///c1.yaml"]) "file:///d.yaml").1

/-- C8: `doResolve` emits exactly one analytics event carrying the item's
label and (when present) its document type, and invokes the resolve
delegate exactly once; neither effect depends on the delegate's outcome,
which is returned unchanged. -/
theorem C8_doResolve_analytics_delegate (item : CompletionItem)
    (delegate : Except JSError CompletionItem) :
    (doResolve item delegate).1.count
        (Eff.sendAnalytics "resolveCompletion" (some item.label)
          (item.data.bind (fun d => d.documentType))) = 1 ∧
    (doResolve item delegate).1.count
        (Eff.invokeResolveDelegate item.label) = 1 ∧
    (doResolve item delegate).2 = delegate ∧
    (∀ delegate2, (doResolve item delegate2).1 =
      (doResolve item delegate).1) := by
  refine ⟨?_, ?_, rfl, fun delegate2 => rfl⟩
  · unfold doResolve
    simp
  · unfold doResolve
    simp

/-- C8 witness. -/
theorem C8_doResolve_analytics_delegate_witness :
    (doResolve ⟨"AWS::Serverless::Function", some ⟨some "SAM"⟩⟩
        (Except.error (JSError.error "resolve failed"))).1.count
        (Eff.sendAnalytics "resolveCompletion"
          (some "AWS::Serverless::Function")
          ((some (⟨some "SAM"⟩ : ItemData)).bind
            (fun d => d.documentType))) = 1 :=
  (C8_doResolve_analytics_delegate
    ⟨"AWS::Serverless::Function", some ⟨some "SAM"⟩⟩
    (Except.error (JSError.error "resolve failed"))).1

/-- C10: when the document store has no document for the URI, `validate`
returns without publishing diagnostics, without invoking the engine, and
without any other effect. -/
theorem C10_missing_document_noop (env : ValidateEnv) (uri : String)
    (h : env.textDocument = none) :
    validate env uri = [] := by
  unfold validate
  rw [h]

/-- C10 witness. -/
theorem C10_missing_document_noop_witness :
    validate
      { textDocument := none,
        getYamlDocument := Except.ok ⟨none⟩,
        engineResult := fun _ => Except.ok () }
      "file:///gone.yaml" = [] :=
  C10_missing_document_noop _ "file:///gone.yaml" rfl

theorem set_now_pending (s : SchedState) (n : Nat) :
    ({ s with now := n } : SchedState).pending = s.pending := rfl

theorem set_now_timers (s : SchedState) (n : Nat) :
    ({ s with now := n } : SchedState).timers = s.timers := rfl

theorem set_now_nextId (s : SchedState) (n : Nat) :
    ({ s with now := n } : SchedState).nextId = s.nextId := rfl

theorem set_now_executed (s : SchedState) (n : Nat) :
    ({ s with now := n } : SchedState).executed = s.executed := rfl

theorem set_now_settled (s : SchedState) (n : Nat) :
    ({ s with now := n } : SchedState).settled = s.settled := rfl

theorem set_now_now (s : SchedState) (n : Nat) :
    ({ s with now := n } : SchedState).now = n := rfl

/-- C9: a `doValidation` call whose pending handle is canceled before its
delay elapses — by a later `doValidation` for the same URI or by
`clearDocument` — leaves a promise that never settles: no subsequent run of
the scheduler resolves or rejects it (nor runs its validation). -/
theorem C9_superseded_promise_never_settles (s s1 : SchedState) (u : String)
    (tid : Nat) (ev : SchedEv)
    (hreach : SchedReach s)
    (hlp : lookupPending s u = some tid)
    (hev : ev = SchedEv.doValidationEv u ∨ ev = SchedEv.clearDocumentEv u)
    (hstep : schedStep s ev = some s1) :
    ∀ evs s2, schedRun s1 evs = some s2 →
      tid ∉ s2.settled ∧ tid ∉ s2.executed := by
  have inv := schedReach_inv hreach
  have hpmem : (u, tid) ∈ s.pending := lookupPending_mem hlp
  obtain ⟨hex, hst⟩ := inv.pendingFresh _ hpmem
  obtain ⟨t, htm, htid, -⟩ := inv.timerOfPending _ hpmem
  have hlt : tid < s.nextId := by
    have := inv.timerIdLt t htm
    rw [htid] at this
    exact this
  have hdead : DeadId s1 tid := by
    cases hev with
    | inl h =>
        subst h
        simp only [schedStep, Option.some.injEq] at hstep
        subst hstep
        refine ⟨?_, ?_, ?_, ?_⟩
        · rw [doValidation_nextId]
          omega
        · intro t2 ht2
          rw [doValidation_timers, List.mem_cons] at ht2
          cases ht2 with
          | inl h2 =>
              subst h2
              show s.nextId ≠ tid
              omega
          | inr h2 =>
              rw [clean_timers_of_lookup hlp] at h2
              have := List.of_mem_filter h2
              simpa using this
        · rw [doValidation_executed]
          exact hex
        · rw [doValidation_settled]
          exact hst
    | inr h =>
        subst h
        simp only [schedStep, Option.some.injEq] at hstep
        subst hstep
        refine ⟨?_, ?_, ?_, ?_⟩
        · rw [cleanPendingValidation_nextId]
          exact hlt
        · intro t2 ht2
          rw [clean_timers_of_lookup hlp] at ht2
          have := List.of_mem_filter ht2
          simpa using this
        · rw [cleanPendingValidation_executed]
          exact hex
        · rw [cleanPendingValidation_settled]
          exact hst
  intro evs s2 hrun
  have hd2 := schedRun_dead hrun hdead
  exact ⟨hd2.2.2.2, hd2.2.2.1⟩

/-- C9 witness. -/
theorem C9_superseded_promise_never_settles_witness :
    (0 : Nat) ∉ ({ pending := [],
                   timers := [],
                   nextId := 2,
                   now := 200,
                   executed := [1],
                   settled := [1] } : SchedState).settled ∧
    (0 : Nat) ∉ ({ pending := [],
                   timers := [],
                   nextId := 2,
                   now := 200,
                   executed := [1],
                   settled := [1] } : SchedState).executed :=
  C9_superseded_promise_never_settles
    (doValidation initSched "file:///a.yaml")
    (doValidation (doValidation initSched "file:///a.yaml")
      "file:///a.yaml")
    "file:///a.yaml" 0 (SchedEv.doValidationEv "file:///a.yaml")
    (SchedReach.step (SchedEv.doValidationEv "file:///a.yaml")
      SchedReach.init rfl)
    (by decide) (Or.inl rfl) rfl
    [SchedEv.elapse 200, SchedEv.fireTimerEv 1]
    { pending := [],
      timers := [],
      nextId := 2,
      now := 200,
      executed := [1],
      settled := [1] }
    (by decide)

/-- C3: in every reachable state of a batch run at most 3 validations are in
flight; when no validation is in flight the whole batch has settled; when an
in-flight validation settles and URIs remain, the next URI in order is
started; each settlement settles exactly one more validation; whether a
validation succeeded or failed does not change which validations are in
flight or started next, and a failure is routed to the exception sink. -/
theorem C3_pool_bounded_isolated (s : PoolState) (i : Nat) (ok : Bool)
    (hreach : PoolReach s) :
    s.inFlight.length ≤ 3 ∧
    (s.inFlight = [] → doneCount s = s.uris.length) ∧
    (i ∈ s.inFlight → s.currentIndex < s.uris.length →
      s.currentIndex ∈ (poolSettle s i ok).inFlight ∧
      (poolSettle s i ok).currentIndex = s.currentIndex + 1) ∧
    (i ∈ s.inFlight → doneCount (poolSettle s i ok) = doneCount s + 1) ∧
    ((poolSettle s i false).inFlight = (poolSettle s i true).inFlight ∧
      (poolSettle s i false).currentIndex =
        (poolSettle s i true).currentIndex) ∧
    (i ∈ s.inFlight → (poolSettle s i false).sink = i :: s.sink) := by
  obtain ⟨bound, nodup, count, le, fill⟩ := poolReach_inv hreach
  have hcond : ∀ b : Bool, s.currentIndex < s.uris.length →
      (settleRecord s i b).currentIndex < (settleRecord s i b).uris.length :=
    fun b h => by
      rw [settleRecord_currentIndex, settleRecord_uris]
      exact h
  have hncond : ∀ b : Bool, ¬s.currentIndex < s.uris.length →
      ¬(settleRecord s i b).currentIndex <
        (settleRecord s i b).uris.length :=
    fun b h => by
      rw [settleRecord_currentIndex, settleRecord_uris]
      exact h
  have hspawn : ∀ b : Bool, s.currentIndex < s.uris.length →
      nextPromise (settleRecord s i b) =
        some (spawnNext (settleRecord s i b)) := by
    intro b h
    unfold nextPromise
    rw [if_pos (hcond b h)]
  have hnone : ∀ b : Bool, ¬s.currentIndex < s.uris.length →
      nextPromise (settleRecord s i b) = none := by
    intro b h
    unfold nextPromise
    rw [if_neg (hncond b h)]
  refine ⟨by omega, ?_, ?_, ?_, ?_, ?_⟩
  · intro h
    rw [h] at fill count
    simp only [List.length_nil] at fill count
    omega
  · intro hmem hcur
    unfold poolSettle
    rw [if_pos hmem, hspawn ok hcur]
    constructor
    · show s.currentIndex ∈ (spawnNext (settleRecord s i ok)).inFlight
      rw [spawnNext_inFlight, settleRecord_inFlight,
        settleRecord_currentIndex]
      simp
    · show (spawnNext (settleRecord s i ok)).currentIndex =
        s.currentIndex + 1
      rw [spawnNext_currentIndex, settleRecord_currentIndex]
  · intro hmem
    unfold poolSettle
    rw [if_pos hmem]
    by_cases hcur : s.currentIndex < s.uris.length
    · rw [hspawn ok hcur]
      show doneCount (spawnNext (settleRecord s i ok)) = doneCount s + 1
      rw [spawnNext_doneCount, settleRecord_doneCount]
    · rw [hnone ok hcur]
      show doneCount (settleRecord s i ok) = doneCount s + 1
      rw [settleRecord_doneCount]
  · by_cases hmem : i ∈ s.inFlight
    · unfold poolSettle
      rw [if_pos hmem, if_pos hmem]
      by_cases hcur : s.currentIndex < s.uris.length
      · rw [hspawn false hcur, hspawn true hcur]
        exact ⟨rfl, rfl⟩
      · rw [hnone false hcur, hnone true hcur]
        exact ⟨rfl, rfl⟩
    · unfold poolSettle
      rw [if_neg hmem, if_neg hmem]
      exact ⟨rfl, rfl⟩
  · intro hmem
    unfold poolSettle
    rw [if_pos hmem]
    by_cases hcur : s.currentIndex < s.uris.length
    · rw [hspawn false hcur]
      rfl
    · rw [hnone false hcur]
      rfl

/-- C3 witness. -/
theorem C3_pool_bounded_isolated_witness :
    (poolStart ["a", "b", "c", "d"]).inFlight.length ≤ 3 ∧
    ((poolStart ["a", "b", "c", "d"]).currentIndex ∈
        (poolSettle (poolStart ["a", "b", "c", "d"]) 0 false).inFlight ∧
      (poolSettle (poolStart ["a", "b", "c", "d"]) 0 false).currentIndex =
        (poolStart ["a", "b", "c", "d"]).currentIndex + 1) ∧
    (poolSettle (poolStart ["a", "b", "c", "d"]) 0 false).sink =
      0 :: (poolStart ["a", "b", "c", "d"]).sink := by
  have h := C3_pool_bounded_isolated (poolStart ["a", "b", "c", "d"]) 0
    false (PoolReach.start _)
  exact ⟨h.1, h.2.2.1 (by decide) (by decide), h.2.2.2.2.2 (by decide)⟩

/-- C1: two `doValidation` calls for the same URI within the 200 ms debounce
window leave exactly one live pending handle, the one armed by the second
call; the first call's timer could not fire within the window and, once
canceled, its validation never executes and its promise never settles in any
continuation, while the second call's validation executes when its delay
elapses. -/
theorem C1_debounce_single_execution (s s3 : SchedState) (u : String)
    (d : Nat) (hreach : SchedReach s) (hd : d < VALIDATION_DELAY_MS)
    (hrun : schedRun s [SchedEv.doValidationEv u, SchedEv.elapse d,
      SchedEv.doValidationEv u] = some s3) :
    s3.timers.filter (fun t => t.uri = u) =
      [⟨s.nextId + 1, u, s.now + d + VALIDATION_DELAY_MS⟩] ∧
    lookupPending s3 u = some (s.nextId + 1) ∧
    schedStep { doValidation s u with
      now := (doValidation s u).now + d } (SchedEv.fireTimerEv s.nextId) =
      none ∧
    (∀ evs s4, schedRun s3 evs = some s4 →
      s.nextId ∉ s4.executed ∧ s.nextId ∉ s4.settled) ∧
    (∃ s5, schedRun s3 [SchedEv.elapse VALIDATION_DELAY_MS,
        SchedEv.fireTimerEv (s.nextId + 1)] = some s5 ∧
      (s.nextId + 1) ∈ s5.executed ∧ s.nextId ∉ s5.executed) := by
  have inv : SchedInv s := schedReach_inv hreach
  have hs3 : s3 = doValidation
      { doValidation s u with now := (doValidation s u).now + d } u := by
    simp only [schedRun, schedStep, Option.some.injEq] at hrun
    exact hrun.symm
  subst hs3
  -- facts about the intermediate state s2 reached after the first call and
  -- the elapse step
  have e1 : lookupPending
      ({ doValidation s u with now := (doValidation s u).now + d } :
        SchedState) u = some s.nextId := by
    unfold lookupPending
    rw [set_now_pending, doValidation_pending,
      List.find?_cons_of_pos _ (by simp)]
    rfl
  have e2 : ({ doValidation s u with now := (doValidation s u).now + d } :
      SchedState).nextId = s.nextId + 1 := by
    rw [set_now_nextId, doValidation_nextId]
  have e3 : ({ doValidation s u with now := (doValidation s u).now + d } :
      SchedState).now = s.now + d := by
    rw [set_now_now, doValidation_now]
  have e4 : ({ doValidation s u with now := (doValidation s u).now + d } :
      SchedState).timers =
      ⟨s.nextId, u, s.now + VALIDATION_DELAY_MS⟩ ::
        (cleanPendingValidation s u).timers := by
    rw [set_now_timers, doValidation_timers]
  have e5 : (cleanPendingValidation
      ({ doValidation s u with now := (doValidation s u).now + d } :
        SchedState) u).timers =
      ({ doValidation s u with now := (doValidation s u).now + d } :
        SchedState).timers.filter (fun t => t.tid ≠ s.nextId) :=
    clean_timers_of_lookup e1
  have e6 : (doValidation
      ({ doValidation s u with now := (doValidation s u).now + d } :
        SchedState) u).timers =
      ⟨s.nextId + 1, u, s.now + d + VALIDATION_DELAY_MS⟩ ::
        (cleanPendingValidation
          ({ doValidation s u with now := (doValidation s u).now + d } :
            SchedState) u).timers := by
    rw [doValidation_timers, e2, e3]
  have e7 : (cleanPendingValidation
      ({ doValidation s u with now := (doValidation s u).now + d } :
        SchedState) u).timers.filter (fun t => t.uri = u) = [] := by
    rw [e5, List.filter_eq_nil_iff]
    intro t ht
    have hpred := List.of_mem_filter ht
    have htm := List.mem_of_mem_filter ht
    rw [e4, List.mem_cons] at htm
    cases htm with
    | inl h =>
        subst h
        simp at hpred
    | inr h =>
        have := clean_no_uri_timer inv u t h
        simpa using this
  have hexec3 : (doValidation
      ({ doValidation s u with now := (doValidation s u).now + d } :
        SchedState) u).executed = s.executed := by
    rw [doValidation_executed, set_now_executed, doValidation_executed]
  have hsettled3 : (doValidation
      ({ doValidation s u with now := (doValidation s u).now + d } :
        SchedState) u).settled = s.settled := by
    rw [doValidation_settled, set_now_settled, doValidation_settled]
  have hnow3 : (doValidation
      ({ doValidation s u with now := (doValidation s u).now + d } :
        SchedState) u).now = s.now + d := by
    rw [doValidation_now, e3]
  have hexinit : s.nextId ∉ s.executed := by
    intro hc
    exact absurd (inv.executedLt _ hc) (lt_irrefl _)
  have hstinit : s.nextId ∉ s.settled := by
    intro hc
    exact absurd (inv.settledLt _ hc) (lt_irrefl _)
  have hdead : DeadId (doValidation
      ({ doValidation s u with now := (doValidation s u).now + d } :
        SchedState) u) s.nextId := by
    refine ⟨?_, ?_, ?_, ?_⟩
    · rw [doValidation_nextId, e2]
      omega
    · intro t ht
      rw [e6, List.mem_cons] at ht
      cases ht with
      | inl h =>
          subst h
          show s.nextId + 1 ≠ s.nextId
          omega
      | inr h =>
          rw [e5] at h
          have := List.of_mem_filter h
          simpa using this
    · rw [hexec3]
      exact hexinit
    · rw [hsettled3]
      exact hstinit
  refine ⟨?_, ?_, ?_, ?_, ?_⟩
  · rw [e6, List.filter_cons_of_pos (by simp), e7]
  · rw [doValidation_lookup_self, e2]
  · have hfind : ({ doValidation s u with
        now := (doValidation s u).now + d } :
        SchedState).timers.find? (fun t => t.tid = s.nextId) =
        some ⟨s.nextId, u, s.now + VALIDATION_DELAY_MS⟩ := by
      rw [e4, List.find?_cons_of_pos _ (by simp)]
    simp only [schedStep, hfind]
    rw [if_neg ?hdl]
    case hdl =>
      show ¬(s.now + VALIDATION_DELAY_MS ≤
        ({ doValidation s u with now := (doValidation s u).now + d } :
          SchedState).now)
      rw [e3]
      omega
  · intro evs s4 hrun4
    have hd4 := schedRun_dead hrun4 hdead
    exact ⟨hd4.2.2.1, hd4.2.2.2⟩
  · set B := doValidation
      ({ doValidation s u with now := (doValidation s u).now + d } :
        SchedState) u with hB
    have hfind2 : ({ B with now := B.now + VALIDATION_DELAY_MS } :
        SchedState).timers.find? (fun t => t.tid = s.nextId + 1) =
        some ⟨s.nextId + 1, u, s.now + d + VALIDATION_DELAY_MS⟩ := by
      rw [set_now_timers, e6, List.find?_cons_of_pos _ (by simp)]
    have hcond2 : (⟨s.nextId + 1, u, s.now + d + VALIDATION_DELAY_MS⟩ :
        TimerEntry).deadline ≤
        ({ B with now := B.now + VALIDATION_DELAY_MS } :
          SchedState).now := by
      show s.now + d + VALIDATION_DELAY_MS ≤ B.now + VALIDATION_DELAY_MS
      rw [hnow3]
    refine ⟨{ ({ B with now := B.now + VALIDATION_DELAY_MS } :
                SchedState) with
              timers := ({ B with now := B.now + VALIDATION_DELAY_MS } :
                SchedState).timers.filter
                  (fun t2 => t2.tid ≠ s.nextId + 1),
              pending := ({ B with now := B.now + VALIDATION_DELAY_MS } :
                SchedState).pending.filter (fun p => p.1 ≠ u),
              executed := (s.nextId + 1) ::
                ({ B with now := B.now + VALIDATION_DELAY_MS } :
                  SchedState).executed,
              settled := (s.nextId + 1) ::
                ({ B with now := B.now + VALIDATION_DELAY_MS } :
                  SchedState).settled }, ?_, ?_, ?_⟩
    · simp only [schedRun, schedStep, hfind2]
      rw [if_pos hcond2]
    · show s.nextId + 1 ∈ (s.nextId + 1) ::
        ({ B with now := B.now + VALIDATION_DELAY_MS } : SchedState).executed
      exact List.mem_cons_self _ _
    · show s.nextId ∉ (s.nextId + 1) ::
        ({ B with now := B.now + VALIDATION_DELAY_MS } : SchedState).executed
      rw [List.mem_cons]
      intro hc
      cases hc with
      | inl h => omega
      | inr h =>
          rw [set_now_executed, hexec3] at h
          exact hexinit h

/-- C1 witness. -/
theorem C1_debounce_single_execution_witness :
    ({ pending := [("file:///a.yaml", 1)],
       timers := [⟨1, "file:///a.yaml", 300⟩],
       nextId := 2,
       now := 100,
       executed := [],
       settled := [] } : SchedState).timers.filter
        (fun t => t.uri = "file:///a.yaml") =
      [⟨initSched.nextId + 1, "file:///a.yaml",
        initSched.now + 100 + VALIDATION_DELAY_MS⟩] ∧
    lookupPending
      { pending := [("file:///a.yaml", 1)],
        timers := [⟨1, "file:///a.yaml", 300⟩],
        nextId := 2,
        now := 100,
        executed := [],
        settled := [] } "file:///a.yaml" = some (initSched.nextId + 1) ∧
    (initSched.nextId ∉ ({ pending := [],
                           timers := [],
                           nextId := 2,
                           now := 300,
                           executed := [1],
                           settled := [1] } : SchedState).executed ∧
      initSched.nextId ∉ ({ pending := [],
                            timers := [],
                            nextId := 2,
                            now := 300,
                            executed := [1],
                            settled := [1] } : SchedState).settled) := by
  have h := C1_debounce_single_execution initSched
    { pending := [("file:///a.yaml", 1)],
      timers := [⟨1, "file:///a.yaml", 300⟩],
      nextId := 2,
      now := 100,
      executed := [],
      settled := [] } "file:///a.yaml" 100 SchedReach.init (by decide)
    (by decide)
  exact ⟨h.1, h.2.1,
    h.2.2.2.1 [SchedEv.elapse 200, SchedEv.fireTimerEv 1]
      { pending := [],
        timers := [],
        nextId := 2,
        now := 300,
        executed := [1],
        settled := [1] } (by decide)⟩

end LangSvc
